import Mathlib

/-!
Shallow embedding of the `@defy-labs/precise-money` core (`core.ts`):
pure BigInt math for cross-chain units.  JavaScript `bigint` values are
modelled as `Int`; JavaScript `/` and `%` on bigints truncate toward zero,
so they are modelled by `Int.tdiv` and `Int.tmod`.  Strings are modelled as
`List Char`; fallible functions (the source throws) return `Option`.
-/

namespace PreciseMoney

/-- Rounding modes: `'floor' | 'ceil' | 'round' | 'bankers'`. -/
inductive Rounding where
  | floor
  | ceil
  | round
  | bankers
deriving DecidableEq, Repr

/-- Source `absBig(x) = x < 0n ? -x : x`. -/
def absBig (x : Int) : Int := if x < 0 then -x else x

/-- Source `divRound(n, d, mode)`: truncating quotient/remainder adjusted by
the rounding mode; throws (here `none`) on a zero denominator. -/
def divRound (n d : Int) (mode : Rounding) : Option Int :=
  if d = 0 then none else
  let q := n.tdiv d
  let r := n.tmod d
  if r = 0 then some q else
  let sign : Int := if (decide (0 < n)) = (decide (0 < d)) then 1 else -1
  match mode with
  | .floor => some (if sign < 0 then q - 1 else q)
  | .ceil => some (if sign > 0 then q + 1 else q)
  | .round => some (if absBig (r * 2) ≥ absBig d then q + sign else q)
  | .bankers =>
    let twice := absBig (r * 2)
    if twice > absBig d then some (q + sign)
    else if twice < absBig d then some q
    else some (if q.tmod 2 = 0 then q else q + sign)

/-- Source `roundAdjust(base, sign, mode)`: adds a single unit in the last
place to an already-truncated magnitude. -/
def roundAdjust (base : Int) (sign : Int) (mode : Rounding) : Int :=
  match mode with
  | .ceil => if sign > 0 then base + 1 else base
  | .round => base + sign
  | .bankers => if base.tmod 2 = 0 then base else base + sign
  | .floor => base

/-- Source `mulDiv(a, b, c, mode)`: multiply then divide with rounding. -/
def mulDiv (a b c : Int) (mode : Rounding) : Option Int :=
  if c = 0 then none else divRound (a * b) c mode

/-- Source `scaleUnits(u, fromDec, toDec, opts)`: rescale an integer amount
between decimal precisions (decimal counts are `Nat`, mirroring the
non-negative-integer validation). -/
def scaleUnits (u : Int) (fromDec toDec : Nat) (mode : Rounding) : Option Int :=
  if fromDec = toDec then some u
  else if fromDec < toDec then some (u * (10 : Int) ^ (toDec - fromDec))
  else divRound u ((10 : Int) ^ (fromDec - toDec)) mode

/-- Source `splitAmount`'s `while (left >= lotSize)` loop followed by the
final `if (left > 0n)` push; the `0 < lot` conjunct is the termination
guard (the caller checks it before entering the loop). -/
def splitLoop (left lot : Int) : List Int :=
  if _h : 0 < lot ∧ lot ≤ left then lot :: splitLoop (left - lot) lot
  else if 0 < left then [left] else []
termination_by left.toNat
decreasing_by omega

/-- Source `splitAmount(totalMinor, lotSizeMinor)`: throws (here `none`) when
`lotSizeMinor <= 0`, otherwise runs the chunking loop. -/
def splitAmount (total lot : Int) : Option (List Int) :=
  if lot ≤ 0 then none else some (splitLoop total lot)

/-- Specification-side description of `divRound` (the spec's rounding-engine
section): `q`, `r` the truncating quotient and remainder, `sign = +1` if
numerator and denominator share sign else `-1`, and the four mode policies
as the spec states them. -/
def divRoundSpec (n d : Int) (mode : Rounding) : Int :=
  let q := n.tdiv d
  let r := n.tmod d
  let s : Int := if (0 < n ∧ 0 < d) ∨ (n < 0 ∧ d < 0) then 1 else -1
  match mode with
  | .floor => if r = 0 then q else if s < 0 then q - 1 else q
  | .ceil => if 0 < s ∧ r ≠ 0 then q + 1 else q
  | .round => if absBig d ≤ 2 * absBig r then q + s else q
  | .bankers =>
    if absBig d < 2 * absBig r then q + s
    else if 2 * absBig r < absBig d then q
    else if q % 2 = 1 then q + s else q

/-- Model of the JavaScript `number` values passed as `slippageBps`: every
finite double is an exact rational, plus `NaN` and the two infinities.  The
source only applies sign tests, `Number.isFinite`, `Math.trunc`,
`Math.min`/`Math.max` and `BigInt(...)` to these values, and on those
operations a finite double behaves exactly as its rational value. -/
inductive JsNum where
  | num : ℚ → JsNum
  | nan : JsNum
  | posInf : JsNum
  | negInf : JsNum
deriving DecidableEq

/-- Math.trunc on a finite value: round toward zero. -/
def jsTrunc (q : ℚ) : Int := q.num.tdiv q.den

/-- Math.trunc on a general number (`Math.trunc` of `NaN` is `NaN` and of an
infinity is that infinity). -/
def mathTrunc : JsNum → JsNum
  | .num q => .num ((jsTrunc q : Int) : ℚ)
  | x => x

/-- Math.min: `NaN` if either argument is `NaN`. -/
def jsMin : JsNum → JsNum → JsNum
  | .nan, _ => .nan
  | _, .nan => .nan
  | .negInf, _ => .negInf
  | _, .negInf => .negInf
  | .posInf, y => y
  | x, .posInf => x
  | .num a, .num b => .num (min a b)

/-- Math.max: `NaN` if either argument is `NaN`. -/
def jsMax : JsNum → JsNum → JsNum
  | .nan, _ => .nan
  | _, .nan => .nan
  | .posInf, _ => .posInf
  | _, .posInf => .posInf
  | .negInf, y => y
  | x, .negInf => x
  | .num a, .num b => .num (max a b)

/-- The `BigInt(x)` conversion: defined only for integer-valued finite
numbers; throws (here `none`) on `NaN`, infinities and fractions. -/
def bigIntOfJs : JsNum → Option Int
  | .num q => if q.den = 1 then some q.num else none
  | _ => none

/-- Number.isFinite. -/
def jsIsFinite : JsNum → Bool
  | .num _ => true
  | _ => false

/-- The JavaScript comparison `x < 0` (false for `NaN`). -/
def jsLtZero : JsNum → Bool
  | .num q => decide (q < 0)
  | .negInf => true
  | _ => false

/-- Source `clampBps(bps) = Math.max(0, Math.min(10000, Math.trunc(bps)))`. -/
def clampBps (bps : JsNum) : JsNum :=
  jsMax (.num 0) (jsMin (.num 10000) (mathTrunc bps))

/-- Source `applySlippage(amountOutMinor, slippageBps)`: throws (here `none`)
when `slippageBps` is not finite or is negative, otherwise computes
`amountOutMinor * (10000n - BigInt(Math.trunc(slippageBps))) / 10000n`. -/
def applySlippage (amountOutMinor : Int) (slippageBps : JsNum) : Option Int :=
  match slippageBps with
  | .num q => if q < 0 then none else
      some ((amountOutMinor * (10000 - jsTrunc q)).tdiv 10000)
  | _ => none

/-- Source `slippageDown(amountMinor, bps)`: clamp, then
`amountMinor * (10000n - b) / 10000n` (the `BigInt` conversion of a `NaN`
clamp result throws, hence the `Option`). -/
def slippageDown (amountMinor : Int) (bps : JsNum) : Option Int :=
  (bigIntOfJs (clampBps bps)).map
    (fun b => (amountMinor * (10000 - b)).tdiv 10000)

/-- Source `slippageUp(amountMinor, bps)`: clamp, multiply by `10000n + b`,
divide with an explicit remainder bump. -/
def slippageUp (amountMinor : Int) (bps : JsNum) : Option Int :=
  (bigIntOfJs (clampBps bps)).map
    (fun b =>
      let n := amountMinor * (10000 + b)
      let q := n.tdiv 10000
      let r := n.tmod 10000
      if r = 0 then q else q + 1)

/-- Mathematical value of the clamped basis points. -/
def jsClampInt : JsNum → Int
  | .num q => max 0 (min 10000 (jsTrunc q))
  | .posInf => 10000
  | .negInf => 0
  | .nan => 0

/-- Little-endian base-10 digits with explicit fuel (structural recursion, so
concrete instances evaluate in the kernel); `digitsRev n n` agrees with
`Nat.digits 10 n`. -/
def digitsRev (fuel n : Nat) : List Nat :=
  match fuel with
  | 0 => []
  | fuel + 1 => if n = 0 then [] else (n % 10) :: digitsRev fuel (n / 10)

/-- Character for a single decimal digit. -/
def digitChar (d : Nat) : Char := Char.ofNat (48 + d)

/-- Numeric value of a decimal digit character (JS `Number(ch)` on a digit). -/
def digitVal (c : Char) : Nat := c.toNat - 48

/-- Decimal rendering of a natural number, modelling `BigInt.toString`:
most-significant digit first, no leading zeros, `\"0\"` for zero. -/
def natToChars (n : Nat) : List Char :=
  if n = 0 then ['0'] else ((digitsRev n n).reverse.map digitChar)

/-- Numeric value of a digit string, modelling the `BigInt` constructor
applied to an all-digits string. -/
def parseDigits (l : List Char) : Nat :=
  l.foldl (fun a c => 10 * a + digitVal c) 0

/-- JS `String.prototype.padStart(k, '0')`. -/
def padStart (k : Nat) (l : List Char) : List Char :=
  List.replicate (k - l.length) '0' ++ l

/-- Model of the JS whitespace class `\s` restricted to the common ASCII
whitespace characters. -/
def jsIsWs (c : Char) : Bool :=
  c == ' ' || c == '\t' || c == '\n' || c == '\r'

/-- Model of the regex digit class `\d`. -/
def isDigitChar (c : Char) : Bool :=
  48 ≤ c.toNat && c.toNat ≤ 57

/-- The regex test `/^\d+$/`: non-empty and all digits. -/
def isDigitStr (l : List Char) : Bool :=
  !l.isEmpty && l.all isDigitChar

/-- Characters kept by `.replace(/\s+/g, '').replace(/_/g, '')`. -/
def keepChar (c : Char) : Bool := !jsIsWs c && !(c == '_')

/-- Characters kept by `.replace(/[.,\s]/g, '')`. -/
def keepSepChar (c : Char) : Bool := !(c == '.') && !(c == ',') && !jsIsWs c

/-- JS `String.prototype.trim()`. -/
def trimChars (l : List Char) : List Char :=
  ((l.dropWhile jsIsWs).reverse.dropWhile jsIsWs).reverse

/-- JS `String.prototype.lastIndexOf` for a single character (-1 if absent). -/
def lastIdx (l : List Char) (c : Char) : Int :=
  match l with
  | [] => -1
  | a :: t =>
    let r := lastIdx t c
    if 0 ≤ r then r + 1 else if a == c then 0 else -1

/-- The source's `replace` of leading zeros followed by the `|| '0'` default,
on an all-digits string: strip leading zeros, keeping at least one digit. -/
def stripZeros (l : List Char) : List Char :=
  let t := l.dropWhile (fun c => c == '0')
  if t.isEmpty then ['0'] else t

/-- Source `normalizeAmountInput(x)` on a string input: trim, read the sign,
remove grouping (whitespace and underscores), pick the last `.`/`,` as the
decimal separator, split there, validate digits, strip leading integer zeros.
Returns `(sign, integer digits, fraction digits)`, or `none` where the source
throws `invalid amount`. -/
def normalizeAmountInput (x : List Char) : Option (Int × List Char × List Char) :=
  let s0 := trimChars x
  if s0.isEmpty then none else
  let sign : Int := if s0.headD ' ' == '-' then -1 else 1
  let s1 := if s0.headD ' ' == '+' || s0.headD ' ' == '-' then s0.tail else s0
  let s := s1.filter keepChar
  let lastDot := lastIdx s '.'
  let lastComma := lastIdx s ','
  if 0 ≤ lastDot ∨ 0 ≤ lastComma then
    let sep : Char := if lastComma < lastDot then '.' else ','
    let p0 := s.takeWhile (fun c => !(c == sep))
    let p0' := if p0.isEmpty then ['0'] else p0
    let intPart := p0'.filter keepSepChar
    let fracPart := (((s.dropWhile (fun c => !(c == sep))).drop 1).filter
        (fun c => !(c == sep))).filter keepSepChar
    if isDigitStr intPart && (fracPart.isEmpty || isDigitStr fracPart) then
      some (sign, stripZeros intPart, fracPart)
    else none
  else
    let digits := s.filter keepSepChar
    if isDigitStr digits then some (sign, stripZeros digits, []) else none

/-- Source `toMinor(human, decimals, opts)`: parse, pad the fraction to
`decimals+1` digits capturing one rounding digit, build the unsigned base,
adjust by one unit in the last place if the rounding digit is non-zero, and
apply the sign last. -/
def toMinor (human : List Char) (decimals : Nat) (mode : Rounding) : Option Int :=
  match normalizeAmountInput human with
  | none => none
  | some (sign, intPart, fracPart) =>
    let padded := (fracPart ++ List.replicate (decimals + 1) '0').take (decimals + 1)
    let core := padded.take decimals
    let roundDigit := digitVal (padded.getD decimals '0')
    let base : Int :=
      (parseDigits intPart : Int) * (10 : Int) ^ decimals + (parseDigits core : Int)
    let base2 := if 0 < roundDigit then roundAdjust base 1 mode else base
    some (if sign < 0 then -base2 else base2)

/-- Source `fromMinor(minor, decimals)`: split the absolute value at
`10^decimals`, zero-pad the remainder to `decimals` digits, prefix `-` for
negatives, omit the radix point when `decimals = 0`. -/
def fromMinor (minor : Int) (decimals : Nat) : List Char :=
  let neg := minor < 0
  let a := minor.natAbs
  let scale := 10 ^ decimals
  let i := a / scale
  let f := padStart decimals (natToChars (a % scale))
  (if neg then ['-'] else []) ++
    (if decimals = 0 then natToChars i else natToChars i ++ '.' :: f)

/-- Source `priceRatioDecimals(quoteDecimals, priceStr)`: parse, reject a
negative sign, scale the price to `10^quoteDecimals` by string concatenation
of the integer digits with the fraction padded/truncated to exactly
`quoteDecimals` digits. -/
def priceRatioDecimals (quoteDecimals : Nat) (priceStr : List Char) :
    Option (Int × Int) :=
  match normalizeAmountInput priceStr with
  | none => none
  | some (sign, intPart, fracPart) =>
    if sign < 0 then none
    else some
      ((parseDigits (intPart ++
          (fracPart ++ List.replicate quoteDecimals '0').take quoteDecimals) : Int),
        (10 : Int) ^ quoteDecimals)

/-- Source `divToDecimalString(numer, denom, scale)`: sign by XOR of the
operand signs, magnitude `|numer| * 10^scale / |denom|` truncated, zero-padded
to `scale+1` digits, split into head and `scale` tail digits (the `slice`
calls with a `-scale` bound collapse for `scale = 0`). -/
def divToDecimalString (numer denom : Int) (scale : Nat) : Option (List Char) :=
  if denom = 0 then none else
  let neg : Bool := decide (numer < 0) != decide (denom < 0)
  let a := numer.natAbs
  let b := denom.natAbs
  let scaled := a * 10 ^ scale
  let i := scaled / b
  let s := padStart (scale + 1) (natToChars i)
  let head0 := if scale = 0 then ([] : List Char) else s.take (s.length - scale)
  let head := if head0.isEmpty then ['0'] else head0
  let tail := if scale = 0 then s else s.drop (s.length - scale)
  some ((if neg then ['-'] else []) ++ head ++
    (if 0 < scale then '.' :: tail else []))

/-- Specification-side value `integer * 10^decimals + retainedFraction` of the
spec's codec section: the retained fraction is the parsed fraction
padded/truncated to exactly `decimals` digits. -/
def toMinorBase (I F : List Char) (d : Nat) : Int :=
  (parseDigits I : Int) * (10 : Int) ^ d +
    (parseDigits ((F ++ List.replicate d '0').take d) : Int)

lemma absBig_mul_two (r : Int) : absBig (r * 2) = 2 * absBig r := by
  unfold absBig
  rcases lt_trichotomy r 0 with h | h | h <;> simp_all <;> omega

lemma absBig_nonneg (x : Int) : 0 ≤ absBig x := by
  unfold absBig; split <;> omega

lemma absBig_pos (x : Int) (hx : x ≠ 0) : 0 < absBig x := by
  unfold absBig; split <;> omega

lemma absBig_zero : absBig 0 = 0 := rfl

lemma tmod_two_eq_zero_iff (q : Int) : q.tmod 2 = 0 ↔ q % 2 = 0 := by
  rw [← Int.dvd_iff_tmod_eq_zero, Int.dvd_iff_emod_eq_zero]

lemma absBig_cases (x : Int) : (absBig x = x ∨ absBig x = -x) ∧ 0 ≤ absBig x := by
  unfold absBig; split <;> omega

lemma divRound_eq_spec (n d : Int) (hd : d ≠ 0) (mode : Rounding) :
    divRound n d mode = some (divRoundSpec n d mode) := by
  have habsd := absBig_pos d hd
  have habsdc := absBig_cases d
  have habsrc := absBig_cases (n.tmod d)
  have heven := tmod_two_eq_zero_iff (n.tdiv d)
  have htz : n = 0 → n.tmod d = 0 := by
    intro h; rw [h, Int.zero_tmod]
  cases mode <;>
    simp only [divRound, divRoundSpec, absBig_mul_two, ge_iff_le, gt_iff_lt,
      decide_eq_decide] <;>
    rw [if_neg hd] <;>
    split_ifs <;>
    simp only [Option.some.injEq] <;>
    omega

/-- C1: for `d ≠ 0`, `divRound` matches the spec's per-mode description
(truncating `q`,`r`, sign by shared-sign rule, the four policies); both
`divRound` and `mulDiv` fail exactly when the denominator is zero, and
`mulDiv a b c mode` computes `divRound (a*b) c mode`. -/
theorem C1_divRound_mulDiv (n d a b c : Int) (mode : Rounding) (hd : d ≠ 0) :
    divRound n d mode = some (divRoundSpec n d mode) ∧
    (divRound n d mode = none ↔ d = 0) ∧
    (mulDiv a b c mode = none ↔ c = 0) ∧
    (c ≠ 0 → mulDiv a b c mode = divRound (a * b) c mode) := by
  refine ⟨divRound_eq_spec n d hd mode, ?_, ?_, ?_⟩
  · constructor
    · intro h
      by_contra hd0
      rw [divRound_eq_spec n d hd0 mode] at h
      exact Option.some_ne_none _ h
    · intro h; exact absurd h hd
  · constructor
    · intro h
      by_contra hc0
      unfold mulDiv at h
      rw [if_neg hc0, divRound_eq_spec _ _ hc0 mode] at h
      exact Option.some_ne_none _ h
    · intro h; unfold mulDiv; rw [if_pos h]
  · intro hc0
    unfold mulDiv
    rw [if_neg hc0]

/-- C1 witness: the theorem applied at concrete inputs (bankers tie
`5/2 = 2`, round `5/2 = 3`, division-by-zero checks). -/
theorem C1_divRound_mulDiv_witness :
    divRound 5 2 Rounding.bankers = some (divRoundSpec 5 2 Rounding.bankers) ∧
    divRoundSpec 5 2 Rounding.bankers = 2 ∧
    (mulDiv 5 1 2 Rounding.round = none ↔ (2 : Int) = 0) := by
  refine ⟨(C1_divRound_mulDiv 5 2 5 1 2 Rounding.bankers (by decide)).1, by decide,
    (C1_divRound_mulDiv 5 2 5 1 2 Rounding.round (by decide)).2.2.1⟩

/-- C4 counterexample: the claim says `roundAdjust` adds `sign`
unconditionally for `Ceil`, but at `base = 0`, `sign = -1` the code returns
`base` unchanged, not `base + sign`. -/
theorem C4_roundAdjust_counterexample :
    roundAdjust 0 (-1) Rounding.ceil ≠ 0 + (-1) := by decide

/-- C4 (amended): for sign in `{-1,+1}`, `roundAdjust` returns `base`
unchanged for `Floor`; `base + sign` unconditionally for `Round`; for `Ceil`
it returns `base + 1` when `sign > 0` and `base` unchanged otherwise; for
`Bankers` it returns `base + sign` unless `base` is already even. -/
theorem C4_roundAdjust_amended (base sign : Int) (hs : sign = 1 ∨ sign = -1) :
    roundAdjust base sign Rounding.floor = base ∧
    roundAdjust base sign Rounding.round = base + sign ∧
    roundAdjust base sign Rounding.ceil = (if 0 < sign then base + 1 else base) ∧
    roundAdjust base sign Rounding.bankers = (if 2 ∣ base then base else base + sign) := by
  refine ⟨rfl, rfl, rfl, ?_⟩
  unfold roundAdjust
  have h2 : base.tmod 2 = 0 ↔ 2 ∣ base := (Int.dvd_iff_tmod_eq_zero).symm
  by_cases hb : 2 ∣ base
  · rw [if_pos (h2.mpr hb), if_pos hb]
  · rw [if_neg (fun h => hb (h2.mp h)), if_neg hb]

/-- C4 witness: the amended theorem applied at `base = 3`, `sign = 1`
(3 is odd, so bankers adjusts). -/
theorem C4_roundAdjust_witness : roundAdjust 3 1 Rounding.bankers = 3 + 1 := by
  have h := (C4_roundAdjust_amended 3 1 (Or.inl rfl)).2.2.2
  rwa [if_neg (by decide)] at h

/-- C7: `scaleUnits` is the identity at equal decimals, multiplies exactly by
`10^(to-from)` when widening, divides via `divRound` when narrowing, and
widening then narrowing back (both under the default `Floor` mode) recovers
the input whenever `b ≥ a`. -/
theorem C7_scaleUnits (x : Int) (a b : Nat) (mode : Rounding) :
    scaleUnits x a a mode = some x ∧
    (a < b → scaleUnits x a b mode = some (x * (10 : Int) ^ (b - a))) ∧
    (b < a → scaleUnits x a b mode = divRound x ((10 : Int) ^ (a - b)) mode) ∧
    (a ≤ b → (scaleUnits x a b Rounding.floor).bind
      (fun y => scaleUnits y b a Rounding.floor) = some x) := by
  refine ⟨?_, ?_, ?_, ?_⟩
  · unfold scaleUnits
    rw [if_pos rfl]
  · intro h
    unfold scaleUnits
    rw [if_neg h.ne, if_pos h]
  · intro h
    unfold scaleUnits
    rw [if_neg h.ne', if_neg (by omega)]
  · intro hab
    rcases Nat.eq_or_lt_of_le hab with h | h
    · subst h
      simp [scaleUnits]
    · have h1 : scaleUnits x a b Rounding.floor = some (x * (10 : Int) ^ (b - a)) := by
        unfold scaleUnits
        rw [if_neg h.ne, if_pos h]
      rw [h1]
      simp only [Option.some_bind]
      unfold scaleUnits
      rw [if_neg h.ne', if_neg (by omega)]
      have hp : ((10 : Int) ^ (b - a)) ≠ 0 := by positivity
      unfold divRound
      rw [if_neg hp]
      simp only [Int.mul_tmod_left, Int.mul_tdiv_cancel _ hp]
      simp

/-- C7 witness: the narrowing conjunct at 7 to 2 decimals, and widening
2 to 7 decimals then narrowing back, which recovers the input. -/
theorem C7_scaleUnits_witness :
    scaleUnits 1250000000 7 2 Rounding.floor =
      divRound 1250000000 ((10 : Int) ^ (7 - 2)) Rounding.floor ∧
    (scaleUnits 12500 2 7 Rounding.floor).bind
      (fun y => scaleUnits y 7 2 Rounding.floor) = some 12500 :=
  ⟨(C7_scaleUnits 1250000000 7 2 Rounding.floor).2.2.1 (by decide),
    (C7_scaleUnits 12500 2 7 Rounding.floor).2.2.2 (by decide)⟩

lemma splitLoop_closed (lot : Int) (hl : 0 < lot) : ∀ left : Int,
    splitLoop left lot =
      List.replicate (left / lot).toNat lot ++
        (if 0 < left - lot * ((left / lot).toNat : Int)
         then [left - lot * ((left / lot).toNat : Int)] else []) := by
  suffices h : ∀ n : Nat, ∀ left : Int, left.toNat = n →
      splitLoop left lot =
        List.replicate (left / lot).toNat lot ++
          (if 0 < left - lot * ((left / lot).toNat : Int)
           then [left - lot * ((left / lot).toNat : Int)] else []) by
    intro left
    exact h left.toNat left rfl
  intro n
  induction n using Nat.strong_induction_on with
  | _ n ih =>
    intro left hn
    rw [splitLoop]
    by_cases h : 0 < lot ∧ lot ≤ left
    · rw [dif_pos h]
      have hrec := ih (left - lot).toNat (by omega) (left - lot) rfl
      rw [hrec]
      have f1 : (left - lot) / lot = left / lot - 1 := by
        have h2 := Int.add_mul_ediv_right left (-1) hl.ne'
        have heq : left + -1 * lot = left - lot := by ring
        rw [heq] at h2
        omega
      have f3 : 1 ≤ left / lot := by
        rw [Int.le_ediv_iff_mul_le hl]
        omega
      have hk : (left / lot).toNat = ((left - lot) / lot).toNat + 1 := by omega
      rw [hk, List.replicate_succ, List.cons_append]
      have he : left - lot * ((((left - lot) / lot).toNat + 1 : Nat) : Int)
          = left - lot - lot * (((left - lot) / lot).toNat : Int) := by
        push_cast
        ring
      rw [he]
    · rw [dif_neg h]
      have hlt : left < lot := by omega
      by_cases hp : 0 < left
      · rw [if_pos hp]
        have f0 : left / lot = 0 := Int.ediv_eq_zero_of_lt hp.le hlt
        rw [f0]
        simp [hp]
      · rw [if_neg hp]
        have f0 : left / lot ≤ 0 := by
          calc left / lot ≤ 0 / lot := Int.ediv_le_ediv hl (by omega)
          _ = 0 := Int.zero_ediv lot
        have f4 : (left / lot).toNat = 0 := by omega
        rw [f4]
        simp [hp]

lemma splitLoop_sum (lot : Int) (hl : 0 < lot) : ∀ left : Int, 0 ≤ left →
    (splitLoop left lot).sum = left := by
  suffices h : ∀ n : Nat, ∀ left : Int, left.toNat = n → 0 ≤ left →
      (splitLoop left lot).sum = left by
    intro left
    exact h left.toNat left rfl
  intro n
  induction n using Nat.strong_induction_on with
  | _ n ih =>
    intro left hn hpos
    rw [splitLoop]
    by_cases h : 0 < lot ∧ lot ≤ left
    · rw [dif_pos h]
      have hrec := ih (left - lot).toNat (by omega) (left - lot) rfl (by omega)
      rw [List.sum_cons, hrec]
      ring
    · rw [dif_neg h]
      by_cases hp : 0 < left
      · rw [if_pos hp]
        simp
      · rw [if_neg hp]
        simp
        omega

/-- C8: `splitAmount` fails exactly when `lotSize ≤ 0`; otherwise it returns
one chunk of `lotSize` for each time the lot fits (the floor quotient),
followed by the strictly-positive leftover as a final chunk; the chunks sum
to the total whenever `total ≥ 0`; and the spec's two examples hold. -/
theorem C8_splitAmount (total lot : Int) :
    (splitAmount total lot = none ↔ lot ≤ 0) ∧
    (0 < lot → splitAmount total lot =
      some (List.replicate (total / lot).toNat lot ++
        (if 0 < total - lot * ((total / lot).toNat : Int)
         then [total - lot * ((total / lot).toNat : Int)] else []))) ∧
    (0 < lot → 0 ≤ total →
      ∃ chunks, splitAmount total lot = some chunks ∧ chunks.sum = total) ∧
    splitAmount 10 3 = some [3, 3, 3, 1] ∧
    splitAmount 2 5 = some [2] := by
  refine ⟨?_, ?_, ?_, ?_, ?_⟩
  · unfold splitAmount
    constructor
    · intro h
      by_contra hc
      rw [if_neg hc] at h
      exact Option.some_ne_none _ h
    · intro h
      rw [if_pos h]
  · intro h
    unfold splitAmount
    rw [if_neg (by omega), splitLoop_closed lot h total]
  · intro h hpos
    refine ⟨splitLoop total lot, ?_, splitLoop_sum lot h total hpos⟩
    unfold splitAmount
    rw [if_neg (by omega)]
  · have h := splitLoop_closed 3 (by decide) 10
    unfold splitAmount
    rw [if_neg (by decide), h]
    decide
  · have h := splitLoop_closed 5 (by decide) 2
    unfold splitAmount
    rw [if_neg (by decide), h]
    decide

/-- C8 witness: the closed form applied at `total = 10`, `lot = 3`. -/
theorem C8_splitAmount_witness :
    splitAmount 10 3 =
      some (List.replicate ((10 : Int) / 3).toNat 3 ++
        (if 0 < (10 : Int) - 3 * (((10 : Int) / 3).toNat : Int)
         then [(10 : Int) - 3 * (((10 : Int) / 3).toNat : Int)] else [])) :=
  (C8_splitAmount 10 3).2.1 (by decide)

lemma bigIntOfJs_intCast (k : Int) : bigIntOfJs (.num (k : ℚ)) = some k := by
  simp [bigIntOfJs, Rat.den_intCast, Rat.num_intCast]

lemma clampBps_eq (bps : JsNum) (h : bps ≠ .nan) :
    bigIntOfJs (clampBps bps) = some (jsClampInt bps) := by
  cases bps with
  | num q =>
    have h1 : clampBps (.num q) = .num ((max 0 (min 10000 (jsTrunc q)) : Int) : ℚ) := by
      unfold clampBps mathTrunc jsMin jsMax
      push_cast
      rfl
    rw [h1, bigIntOfJs_intCast]
    rfl
  | nan => exact absurd rfl h
  | posInf =>
    have h1 : clampBps .posInf = .num ((10000 : Int) : ℚ) := by
      unfold clampBps mathTrunc jsMin jsMax
      norm_num
    rw [h1, bigIntOfJs_intCast]
    rfl
  | negInf =>
    have h1 : clampBps .negInf = .num ((0 : Int) : ℚ) := by
      unfold clampBps mathTrunc jsMin jsMax
      norm_num
    rw [h1, bigIntOfJs_intCast]
    rfl

lemma jsClampInt_bounds (bps : JsNum) : 0 ≤ jsClampInt bps ∧ jsClampInt bps ≤ 10000 := by
  cases bps <;> simp only [jsClampInt] <;> omega

lemma jsTrunc_nonneg {q : ℚ} (h : 0 ≤ q) : 0 ≤ jsTrunc q :=
  Int.tdiv_nonneg (Rat.num_nonneg.mpr h) (Int.ofNat_nonneg q.den)

lemma jsTrunc_le_of_le {q : ℚ} (h0 : 0 ≤ q) (h : q ≤ 10000) : jsTrunc q ≤ 10000 := by
  have hfloor : jsTrunc q = ⌊q⌋ := by
    unfold jsTrunc
    rw [Rat.floor_def]
    exact Int.tdiv_eq_ediv (Rat.num_nonneg.mpr h0) (Int.ofNat_nonneg q.den)
  rw [hfloor]
  calc ⌊q⌋ ≤ ⌊((10000 : Int) : ℚ)⌋ := Int.floor_le_floor (by push_cast; exact h)
  _ = 10000 := Int.floor_intCast 10000

/-- C5 counterexample: the claim says `applySlippage` uses floor division for
every integer `amountOut` including negative ones, but BigInt `/` truncates
toward zero: `applySlippage(-1, 1)` returns `0`, while floor division of
`-1 * 9999` by `10000` gives `-1`. -/
theorem C5_applySlippage_counterexample :
    applySlippage (-1) (JsNum.num 1) ≠ some (Int.fdiv ((-1) * (10000 - 1)) 10000) := by
  decide

/-- C5 (amended): `applySlippage(amountOut, bps)` fails exactly when `bps` is
not finite or negative; otherwise it returns
`amountOut * (10000 - trunc bps) / 10000` under truncating (toward-zero)
division, which agrees with floor division when `amountOut ≥ 0` and
`bps ≤ 10000`; `slippageDown` performs the same computation with `bps`
clamped to `[0, 10000]` instead of failing, except that a `NaN` bps makes
its `BigInt` conversion throw. -/
theorem C5_applySlippage_slippageDown_amended (x : Int) (bps : JsNum)
    (hnn : bps ≠ JsNum.nan) :
    (applySlippage x bps = none ↔ (jsIsFinite bps = false ∨ jsLtZero bps = true)) ∧
    (∀ q : ℚ, bps = .num q → 0 ≤ q →
      applySlippage x bps = some ((x * (10000 - jsTrunc q)).tdiv 10000)) ∧
    (∀ q : ℚ, bps = .num q → 0 ≤ q → q ≤ 10000 → 0 ≤ x →
      applySlippage x bps = some ((x * (10000 - jsTrunc q)).fdiv 10000)) ∧
    (slippageDown x bps = some ((x * (10000 - jsClampInt bps)).tdiv 10000)) ∧
    slippageDown x JsNum.nan = none := by
  refine ⟨?_, ?_, ?_, ?_, rfl⟩
  · cases bps with
    | num q =>
      simp only [applySlippage, jsIsFinite, jsLtZero]
      by_cases hq : q < 0
      · rw [if_pos hq]
        simp [hq]
      · rw [if_neg hq]
        simp [hq]
    | nan => simp [applySlippage, jsIsFinite]
    | posInf => simp [applySlippage, jsIsFinite]
    | negInf => simp [applySlippage, jsIsFinite]
  · rintro q rfl hq
    simp only [applySlippage]
    rw [if_neg (not_lt.mpr hq)]
  · rintro q rfl hq hle hx
    simp only [applySlippage]
    rw [if_neg (not_lt.mpr hq)]
    have ht0 := jsTrunc_nonneg hq
    have ht1 := jsTrunc_le_of_le hq hle
    have hprod : 0 ≤ x * (10000 - jsTrunc q) := mul_nonneg hx (by omega)
    rw [Int.tdiv_eq_ediv hprod (by omega), Int.fdiv_eq_ediv _ (by omega)]
  · rw [slippageDown, clampBps_eq bps hnn]
    rfl

/-- C5 witness: the amended theorem applied at `amountOut = 1000000`,
`bps = 50` (the test's 50-bps example). -/
theorem C5_applySlippage_slippageDown_amended_witness :
    applySlippage 1000000 (JsNum.num 50) =
      some ((1000000 * (10000 - jsTrunc 50)).tdiv 10000) :=
  (C5_applySlippage_slippageDown_amended 1000000 (JsNum.num 50)
    (by decide)).2.1 50 rfl (by norm_num)

/-- C6: `slippageUp` clamps `bps` to `[0, 10000]`, multiplies by
`10000 + bps` and bumps the truncated quotient by one on any non-zero
remainder — which for non-negative amounts is exactly ceiling division —
and the spec's three concrete bounds hold. -/
theorem C6_slippageUp (x : Int) (bps : JsNum) (hnn : bps ≠ JsNum.nan) :
    (slippageUp x bps = some
      (if (x * (10000 + jsClampInt bps)).tmod 10000 = 0
       then (x * (10000 + jsClampInt bps)).tdiv 10000
       else (x * (10000 + jsClampInt bps)).tdiv 10000 + 1)) ∧
    (0 ≤ jsClampInt bps ∧ jsClampInt bps ≤ 10000) ∧
    (0 ≤ x → slippageUp x bps =
      some (-((-(x * (10000 + jsClampInt bps))).fdiv 10000))) ∧
    slippageUp 1000 (JsNum.num 10000) = some 2000 ∧
    slippageDown 1000000 (JsNum.num 0) = some 1000000 ∧
    slippageDown 1000000 (JsNum.num 10000) = some 0 := by
  have hmain : slippageUp x bps = some
      (if (x * (10000 + jsClampInt bps)).tmod 10000 = 0
       then (x * (10000 + jsClampInt bps)).tdiv 10000
       else (x * (10000 + jsClampInt bps)).tdiv 10000 + 1) := by
    rw [slippageUp, clampBps_eq bps hnn]
    rfl
  refine ⟨hmain, jsClampInt_bounds bps, ?_, by decide, by decide, by decide⟩
  intro hx
  rw [hmain]
  have hb := jsClampInt_bounds bps
  have hn : 0 ≤ x * (10000 + jsClampInt bps) := mul_nonneg hx (by omega)
  have h1 : (x * (10000 + jsClampInt bps)).tdiv 10000
      = x * (10000 + jsClampInt bps) / 10000 :=
    Int.tdiv_eq_ediv hn (by omega)
  have h2 : (x * (10000 + jsClampInt bps)).tmod 10000
      = x * (10000 + jsClampInt bps) % 10000 :=
    Int.tmod_eq_emod hn (by omega)
  have h3 : (-(x * (10000 + jsClampInt bps))).fdiv 10000
      = -(x * (10000 + jsClampInt bps)) / 10000 :=
    Int.fdiv_eq_ediv _ (by omega)
  rw [h1, h2, h3]
  congr 1
  omega

/-- C6 witness: the theorem applied at `amount = 1000`, `bps = 10000`. -/
theorem C6_slippageUp_witness :
    slippageUp 1000 (JsNum.num 10000) = some 2000 :=
  (C6_slippageUp 1000 (JsNum.num 10000) (by decide)).2.2.2.1

lemma digitsRev_eq_digits : ∀ fuel n : Nat, n ≤ fuel → digitsRev fuel n = Nat.digits 10 n := by
  intro fuel
  induction fuel with
  | zero =>
    intro n hn
    have : n = 0 := by omega
    subst this
    simp [digitsRev]
  | succ fuel ih =>
    intro n hn
    unfold digitsRev
    by_cases h : n = 0
    · subst h
      simp
    · rw [if_neg h]
      have hd := Nat.digits_def' (b := 10) (by norm_num) (Nat.pos_of_ne_zero h)
      rw [hd, ih (n / 10) (by omega)]

lemma toNat_digitChar {d : Nat} (h : d < 10) : (digitChar d).toNat = 48 + d := by
  interval_cases d <;> decide

lemma digitVal_digitChar {d : Nat} (h : d < 10) : digitVal (digitChar d) = d := by
  unfold digitVal
  rw [toNat_digitChar h]
  omega

lemma isDigitChar_digitChar {d : Nat} (h : d < 10) : isDigitChar (digitChar d) = true := by
  unfold isDigitChar
  rw [toNat_digitChar h]
  simp only [Bool.and_eq_true, decide_eq_true_eq]
  omega

lemma toNat_bounds_of_isDigitChar {c : Char} (h : isDigitChar c = true) :
    48 ≤ c.toNat ∧ c.toNat ≤ 57 := by
  unfold isDigitChar at h
  simp only [Bool.and_eq_true, decide_eq_true_eq] at h
  exact h

lemma beq_false_of_toNat_ne {c d : Char} (h : c.toNat ≠ d.toNat) : (c == d) = false := by
  cases hb : c == d
  · rfl
  · exact absurd (congrArg Char.toNat (eq_of_beq hb)) h

lemma digit_not_special {c : Char} (h : isDigitChar c = true) :
    jsIsWs c = false ∧ keepChar c = true ∧ keepSepChar c = true ∧
    (c == '+') = false ∧ (c == '-') = false ∧ (c == '.') = false ∧
    (c == ',') = false := by
  obtain ⟨h1, h2⟩ := toNat_bounds_of_isDigitChar h
  have hsp : (' ' : Char).toNat = 32 := by decide
  have htb : ('\t' : Char).toNat = 9 := by decide
  have hnl : ('\n' : Char).toNat = 10 := by decide
  have hcr : ('\r' : Char).toNat = 13 := by decide
  have hpl : ('+' : Char).toNat = 43 := by decide
  have hmn : ('-' : Char).toNat = 45 := by decide
  have hdt : ('.' : Char).toNat = 46 := by decide
  have hcm : (',' : Char).toNat = 44 := by decide
  have hus : ('_' : Char).toNat = 95 := by decide
  have hws : jsIsWs c = false := by
    unfold jsIsWs
    rw [beq_false_of_toNat_ne (by rw [hsp]; omega),
      beq_false_of_toNat_ne (by rw [htb]; omega),
      beq_false_of_toNat_ne (by rw [hnl]; omega),
      beq_false_of_toNat_ne (by rw [hcr]; omega)]
    rfl
  refine ⟨hws, ?_, ?_, ?_, ?_, ?_, ?_⟩
  · unfold keepChar
    rw [hws, beq_false_of_toNat_ne (by rw [hus]; omega)]
    rfl
  · unfold keepSepChar
    rw [hws, beq_false_of_toNat_ne (by rw [hdt]; omega),
      beq_false_of_toNat_ne (by rw [hcm]; omega)]
    rfl
  · exact beq_false_of_toNat_ne (by rw [hpl]; omega)
  · exact beq_false_of_toNat_ne (by rw [hmn]; omega)
  · exact beq_false_of_toNat_ne (by rw [hdt]; omega)
  · exact beq_false_of_toNat_ne (by rw [hcm]; omega)

lemma dot_not_special :
    jsIsWs '.' = false ∧ keepChar '.' = true ∧ ('.' == '+') = false ∧
    ('.' == '-') = false := by decide

lemma foldl_parse_shift (l : List Char) (x : Nat) :
    l.foldl (fun a c => 10 * a + digitVal c) x = x * 10 ^ l.length + parseDigits l := by
  induction l generalizing x with
  | nil => simp [parseDigits]
  | cons c t ih =>
    rw [List.foldl_cons]
    rw [ih (10 * x + digitVal c)]
    have h2 : parseDigits (c :: t) = (digitVal c) * 10 ^ t.length + parseDigits t := by
      unfold parseDigits
      rw [List.foldl_cons]
      rw [show (10 * 0 + digitVal c) = digitVal c by omega]
      exact ih (digitVal c)
    rw [h2]
    simp [List.length_cons]
    ring

lemma parseDigits_append (a b : List Char) :
    parseDigits (a ++ b) = parseDigits a * 10 ^ b.length + parseDigits b := by
  unfold parseDigits
  rw [List.foldl_append]
  exact foldl_parse_shift b _

lemma parseDigits_nil : parseDigits [] = 0 := rfl

lemma parseDigits_single (c : Char) : parseDigits [c] = digitVal c := by
  unfold parseDigits
  simp

lemma parseDigits_replicate_zero (k : Nat) :
    parseDigits (List.replicate k '0') = 0 := by
  induction k with
  | zero => rfl
  | succ k ih =>
    rw [List.replicate_succ, show ('0' :: List.replicate k '0')
      = ['0'] ++ List.replicate k '0' from rfl, parseDigits_append, ih]
    rw [parseDigits_single, show digitVal '0' = 0 from by decide]
    omega

lemma parseDigits_padStart (k : Nat) (l : List Char) :
    parseDigits (padStart k l) = parseDigits l := by
  unfold padStart
  rw [parseDigits_append, parseDigits_replicate_zero]
  omega

lemma parse_ofDigits (ds : List Nat) (h : ∀ d ∈ ds, d < 10) :
    parseDigits ((ds.reverse).map digitChar) = Nat.ofDigits 10 ds := by
  induction ds with
  | nil => rfl
  | cons d t ih =>
    rw [List.reverse_cons, List.map_append, parseDigits_append]
    rw [ih (fun x hx => h x (List.mem_cons_of_mem d hx))]
    rw [Nat.ofDigits_cons]
    simp only [List.map_cons, List.map_nil, List.length_cons, List.length_nil,
      parseDigits_single]
    rw [digitVal_digitChar (h d (List.mem_cons_self d t))]
    ring

lemma parseDigits_natToChars (n : Nat) : parseDigits (natToChars n) = n := by
  unfold natToChars
  by_cases h : n = 0
  · subst h
    decide
  · rw [if_neg h, digitsRev_eq_digits n n le_rfl]
    rw [parse_ofDigits _ (fun d hd => Nat.digits_lt_base (by norm_num) hd)]
    exact Nat.ofDigits_digits 10 n

lemma natToChars_all_digit (n : Nat) :
    ∀ c ∈ natToChars n, isDigitChar c = true := by
  unfold natToChars
  by_cases h : n = 0
  · subst h
    intro c hc
    simp at hc
    subst hc
    decide
  · rw [if_neg h, digitsRev_eq_digits n n le_rfl]
    intro c hc
    rw [List.mem_map] at hc
    obtain ⟨d, hd, rfl⟩ := hc
    rw [List.mem_reverse] at hd
    exact isDigitChar_digitChar (Nat.digits_lt_base (by norm_num) hd)

lemma natToChars_ne_nil (n : Nat) : natToChars n ≠ [] := by
  unfold natToChars
  by_cases h : n = 0
  · subst h
    simp
  · rw [if_neg h, digitsRev_eq_digits n n le_rfl]
    simp [Nat.digits_ne_nil_iff_ne_zero.mpr h]

lemma natToChars_length (n : Nat) :
    (natToChars n).length = if n = 0 then 1 else (Nat.digits 10 n).length := by
  unfold natToChars
  by_cases h : n = 0
  · subst h
    rfl
  · rw [if_neg h, if_neg h, digitsRev_eq_digits n n le_rfl]
    simp

lemma natToChars_length_le {m d : Nat} (hm : m < 10 ^ d) (hd : 1 ≤ d) :
    (natToChars m).length ≤ d := by
  rw [natToChars_length]
  by_cases h : m = 0
  · rw [if_pos h]; omega
  · rw [if_neg h, Nat.digits_len 10 m (by norm_num) h]
    have := (Nat.lt_pow_iff_log_lt (by norm_num : (1:Nat) < 10) h).mp hm
    omega

lemma dropWhile_eq_self {p : Char → Bool} {l : List Char}
    (h : ∀ c ∈ l, p c = false) : l.dropWhile p = l := by
  cases l with
  | nil => rfl
  | cons c t =>
    rw [List.dropWhile_cons, h c (List.mem_cons_self c t)]
    simp

lemma filter_eq_self_of {p : Char → Bool} {l : List Char}
    (h : ∀ c ∈ l, p c = true) : l.filter p = l :=
  List.filter_eq_self.mpr h

lemma trimChars_eq_self {l : List Char} (h : ∀ c ∈ l, jsIsWs c = false) :
    trimChars l = l := by
  unfold trimChars
  rw [dropWhile_eq_self h, dropWhile_eq_self (fun c hc => h c (List.mem_reverse.mp hc)),
    List.reverse_reverse]

lemma lastIdx_cons (a : Char) (t : List Char) (c : Char) :
    lastIdx (a :: t) c =
      (if 0 ≤ lastIdx t c then lastIdx t c + 1 else if a == c then 0 else -1) := rfl

lemma lastIdx_not_mem {l : List Char} {c : Char} (h : c ∉ l) : lastIdx l c = -1 := by
  induction l with
  | nil => rfl
  | cons a t ih =>
    rw [lastIdx_cons, ih (fun hc => h (List.mem_cons_of_mem a hc))]
    rw [if_neg (by omega), if_neg]
    intro hb
    have hac : a = c := eq_of_beq hb
    subst hac
    exact h (List.mem_cons_self a t)

lemma lastIdx_append_cons {I F : List Char} {c : Char} (hF : c ∉ F) :
    lastIdx (I ++ c :: F) c = I.length := by
  induction I with
  | nil =>
    rw [List.nil_append, lastIdx_cons, lastIdx_not_mem hF]
    rw [if_neg (by omega), if_pos (by simp)]
    rfl
  | cons a t ih =>
    rw [List.cons_append, lastIdx_cons, ih]
    rw [if_pos (by positivity)]
    simp

lemma takeWhile_append_sep {I F : List Char} {sep : Char}
    (h : ∀ c ∈ I, (c == sep) = false) :
    (I ++ sep :: F).takeWhile (fun c => !(c == sep)) = I := by
  induction I with
  | nil =>
    rw [List.nil_append, List.takeWhile_cons]
    simp
  | cons a t ih =>
    rw [List.cons_append, List.takeWhile_cons]
    rw [h a (List.mem_cons_self a t)]
    rw [ih (fun c hc => h c (List.mem_cons_of_mem a hc))]
    rfl

lemma dropWhile_append_sep {I F : List Char} {sep : Char}
    (h : ∀ c ∈ I, (c == sep) = false) :
    (I ++ sep :: F).dropWhile (fun c => !(c == sep)) = sep :: F := by
  induction I with
  | nil =>
    rw [List.nil_append, List.dropWhile_cons]
    simp
  | cons a t ih =>
    rw [List.cons_append, List.dropWhile_cons]
    rw [h a (List.mem_cons_self a t)]
    rw [ih (fun c hc => h c (List.mem_cons_of_mem a hc))]
    rfl

lemma take_append_replicate (f : List Char) :
    ∀ d k : Nat, d ≤ k →
      (f ++ List.replicate k '0').take d = f.take d ++ List.replicate (d - f.length) '0' := by
  induction f with
  | nil =>
    intro d k hdk
    rw [List.nil_append, List.take_replicate, List.take_nil, List.nil_append]
    congr 1
    simp
    omega
  | cons c t ih =>
    intro d k hdk
    cases d with
    | zero => simp
    | succ d =>
      rw [List.cons_append, List.take_succ_cons, List.take_succ_cons, List.cons_append]
      rw [ih d k (by omega)]
      simp

lemma stripZeros_cons_ne {c : Char} {t : List Char} (h : (c == '0') = false) :
    stripZeros (c :: t) = c :: t := by
  unfold stripZeros
  rw [List.dropWhile_cons, h]
  rfl

lemma stripZeros_natToChars (n : Nat) : stripZeros (natToChars n) = natToChars n := by
  by_cases h : n = 0
  · subst h
    decide
  · have hshape : natToChars n = (Nat.digits 10 n).reverse.map digitChar := by
      unfold natToChars
      rw [if_neg h, digitsRev_eq_digits n n le_rfl]
    have hne : Nat.digits 10 n ≠ [] := Nat.digits_ne_nil_iff_ne_zero.mpr h
    obtain ⟨c, t, hct⟩ := List.exists_cons_of_ne_nil
      (by rw [hshape]; simp [hne] : natToChars n ≠ [])
    have hhead : (natToChars n).head? = some c := by rw [hct]; rfl
    have hlast : (Nat.digits 10 n).getLast hne ≠ 0 := Nat.getLast_digit_ne_zero 10 h
    have hhead2 : (natToChars n).head? = some (digitChar ((Nat.digits 10 n).getLast hne)) := by
      rw [hshape]
      rw [List.head?_map, List.head?_reverse]
      rw [List.getLast?_eq_getLast _ hne]
      rfl
    have hc : c = digitChar ((Nat.digits 10 n).getLast hne) := by
      rw [hhead] at hhead2
      exact Option.some_injective _ hhead2
    have hd10 : (Nat.digits 10 n).getLast hne < 10 :=
      Nat.digits_lt_base (by norm_num) (List.getLast_mem hne)
    rw [hct, stripZeros_cons_ne]
    rw [hc]
    apply beq_false_of_toNat_ne
    rw [toNat_digitChar hd10, show ('0' : Char).toNat = 48 from by decide]
    omega

lemma getD_append_left {l l' : List Char} {n : Nat} {c : Char} (h : n < l.length) :
    (l ++ l').getD n c = l.getD n c := by
  induction l generalizing n with
  | nil => simp at h
  | cons a t ih =>
    cases n with
    | zero => rfl
    | succ n =>
      rw [List.cons_append, List.getD_cons_succ, List.getD_cons_succ]
      exact ih (by simpa using h)

lemma getD_append_right {l l' : List Char} {n : Nat} {c : Char} (h : l.length ≤ n) :
    (l ++ l').getD n c = l'.getD (n - l.length) c := by
  induction l generalizing n with
  | nil => simp
  | cons a t ih =>
    cases n with
    | zero => simp at h
    | succ n =>
      rw [List.cons_append, List.getD_cons_succ]
      rw [ih (by simpa using h)]
      simp

lemma getD_out_of_range {l : List Char} {n : Nat} {c : Char} (h : l.length ≤ n) :
    l.getD n c = c := by
  induction l generalizing n with
  | nil => rfl
  | cons a t ih =>
    cases n with
    | zero => simp at h
    | succ n =>
      rw [List.getD_cons_succ]
      exact ih (by simpa using h)

lemma getD_replicate {k n : Nat} {c : Char} : (List.replicate k c).getD n c = c := by
  induction k generalizing n with
  | zero => rfl
  | succ k ih =>
    cases n with
    | zero => rfl
    | succ n =>
      rw [List.replicate_succ, List.getD_cons_succ]
      exact ih

lemma not_mem_of_digits {l : List Char} (hdig : ∀ c ∈ l, isDigitChar c = true)
    {d : Char} (hd : d.toNat < 48 ∨ 57 < d.toNat) : d ∉ l := by
  intro hmem
  have := toNat_bounds_of_isDigitChar (hdig d hmem)
  omega

lemma normalize_digits_only {I : List Char} (hne : I ≠ [])
    (hdig : ∀ c ∈ I, isDigitChar c = true) :
    normalizeAmountInput I = some (1, stripZeros I, []) := by
  obtain ⟨c, t, rfl⟩ := List.exists_cons_of_ne_nil hne
  have hc := digit_not_special (hdig c (List.mem_cons_self c t))
  have htrim : trimChars (c :: t) = c :: t :=
    trimChars_eq_self (fun x hx => (digit_not_special (hdig x hx)).1)
  have hfilter : (c :: t).filter keepChar = c :: t :=
    filter_eq_self_of (fun x hx => (digit_not_special (hdig x hx)).2.1)
  have hfilter2 : (c :: t).filter keepSepChar = c :: t :=
    filter_eq_self_of (fun x hx => (digit_not_special (hdig x hx)).2.2.1)
  have hdot : lastIdx (c :: t) '.' = -1 :=
    lastIdx_not_mem (not_mem_of_digits hdig (by decide))
  have hcomma : lastIdx (c :: t) ',' = -1 :=
    lastIdx_not_mem (not_mem_of_digits hdig (by decide))
  have hds : isDigitStr (c :: t) = true := by
    unfold isDigitStr
    simp only [List.isEmpty_cons, Bool.not_false, Bool.true_and, List.all_eq_true]
    exact hdig
  simp only [normalizeAmountInput, htrim, List.isEmpty_cons, Bool.false_eq_true,
    if_false, List.headD_cons, hc.2.2.2.1, hc.2.2.2.2.1, Bool.or_self, hfilter,
    hdot, hcomma, hfilter2, hds]
  rw [if_neg (by norm_num)]
  rw [if_pos trivial]

lemma normalize_int_frac {I F : List Char} (hne : I ≠ [])
    (hdigI : ∀ c ∈ I, isDigitChar c = true)
    (hdigF : ∀ c ∈ F, isDigitChar c = true) :
    normalizeAmountInput (I ++ '.' :: F) = some (1, stripZeros I, F) := by
  obtain ⟨c, t, rfl⟩ := List.exists_cons_of_ne_nil hne
  have hc := digit_not_special (hdigI c (List.mem_cons_self c t))
  have hall : ∀ x ∈ (c :: t) ++ '.' :: F, jsIsWs x = false := by
    intro x hx
    rcases List.mem_append.mp hx with h | h
    · exact (digit_not_special (hdigI x h)).1
    · rcases List.mem_cons.mp h with h | h
      · subst h; decide
      · exact (digit_not_special (hdigF x h)).1
  have htrim : trimChars ((c :: t) ++ '.' :: F) = (c :: t) ++ '.' :: F :=
    trimChars_eq_self hall
  have hfilter : ((c :: t) ++ '.' :: F).filter keepChar = (c :: t) ++ '.' :: F := by
    apply filter_eq_self_of
    intro x hx
    rcases List.mem_append.mp hx with h | h
    · exact (digit_not_special (hdigI x h)).2.1
    · rcases List.mem_cons.mp h with h | h
      · subst h; decide
      · exact (digit_not_special (hdigF x h)).2.1
  have hdotI : ∀ x ∈ (c :: t), (x == '.') = false :=
    fun x hx => (digit_not_special (hdigI x hx)).2.2.2.2.2.1
  have hdotF : ('.' : Char) ∉ F := not_mem_of_digits hdigF (by decide)
  have hdot : lastIdx ((c :: t) ++ '.' :: F) '.' = (c :: t).length :=
    lastIdx_append_cons hdotF
  have hcommaMem : (',' : Char) ∉ (c :: t) ++ '.' :: F := by
    intro hmem
    rcases List.mem_append.mp hmem with h | h
    · exact not_mem_of_digits hdigI (by decide) h
    · rcases List.mem_cons.mp h with h | h
      · exact absurd h (by decide)
      · exact not_mem_of_digits hdigF (by decide) h
  have hcomma : lastIdx ((c :: t) ++ '.' :: F) ',' = -1 := lastIdx_not_mem hcommaMem
  have htake : ((c :: t) ++ '.' :: F).takeWhile (fun x => !(x == '.')) = c :: t :=
    takeWhile_append_sep hdotI
  have hdrop : ((c :: t) ++ '.' :: F).dropWhile (fun x => !(x == '.')) = '.' :: F :=
    dropWhile_append_sep hdotI
  have hFd : F.filter (fun x => !(x == '.')) = F := by
    apply filter_eq_self_of
    intro x hx
    rw [(digit_not_special (hdigF x hx)).2.2.2.2.2.1]
    rfl
  have hFd2 : F.filter keepSepChar = F :=
    filter_eq_self_of (fun x hx => (digit_not_special (hdigF x hx)).2.2.1)
  have hId2 : (c :: t).filter keepSepChar = c :: t :=
    filter_eq_self_of (fun x hx => (digit_not_special (hdigI x hx)).2.2.1)
  have hdsI : isDigitStr (c :: t) = true := by
    unfold isDigitStr
    simp only [List.isEmpty_cons, Bool.not_false, Bool.true_and, List.all_eq_true]
    exact hdigI
  have hFrac : (F.isEmpty || isDigitStr F) = true := by
    cases F with
    | nil => rfl
    | cons f ft =>
      simp only [List.isEmpty_cons, Bool.false_or]
      unfold isDigitStr
      simp only [List.isEmpty_cons, Bool.not_false, Bool.true_and, List.all_eq_true]
      exact hdigF
  have hheadD : ((c :: t) ++ '.' :: F).headD ' ' = c := by
    rw [List.cons_append]
    rfl
  have hisE : ((c :: t) ++ '.' :: F).isEmpty = false := by
    rw [List.cons_append]
    rfl
  have hd1 : ('.' :: F).drop 1 = F := rfl
  simp only [normalizeAmountInput, htrim, hisE, Bool.false_eq_true, if_false,
    hheadD, hc.2.2.2.1, hc.2.2.2.2.1, Bool.or_self, hfilter, hdot, hcomma]
  rw [if_pos (show (0 : Int) ≤ ((c :: t).length : Int) ∨ (0 : Int) ≤ -1
    from Or.inl (by omega))]
  rw [if_pos (show (-1 : Int) < ((c :: t).length : Int) from by omega)]
  rw [htake, hdrop]
  have hp0 : (if (c :: t).isEmpty = true then ['0'] else c :: t) = c :: t := by simp
  rw [hp0]
  rw [hId2, hd1, hFd, hFd2, hdsI, hFrac]
  simp

lemma padStart_length (k : Nat) (l : List Char) :
    (padStart k l).length = max k l.length := by
  unfold padStart
  rw [List.length_append, List.length_replicate]
  omega

lemma padStart_all_digit {k : Nat} {l : List Char}
    (h : ∀ c ∈ l, isDigitChar c = true) :
    ∀ c ∈ padStart k l, isDigitChar c = true := by
  intro c hc
  rcases List.mem_append.mp hc with h1 | h1
  · rw [List.eq_of_mem_replicate h1]
    decide
  · exact h c h1

lemma fromMinor_nonneg (m : Int) (hm : 0 ≤ m) (d : Nat) :
    fromMinor m d =
      (if d = 0 then natToChars (m.natAbs / 10 ^ d)
       else natToChars (m.natAbs / 10 ^ d) ++
         '.' :: padStart d (natToChars (m.natAbs % 10 ^ d))) := by
  simp only [fromMinor]
  rw [if_neg (by omega : ¬ m < 0), List.nil_append]

lemma normalize_fromMinor (m : Int) (hm : 0 ≤ m) (d : Nat) :
    normalizeAmountInput (fromMinor m d) =
      some (1, natToChars (m.natAbs / 10 ^ d),
        if d = 0 then []
        else padStart d (natToChars (m.natAbs % 10 ^ d))) := by
  rw [fromMinor_nonneg m hm d]
  by_cases hd : d = 0
  · rw [if_pos hd, if_pos hd]
    rw [normalize_digits_only (natToChars_ne_nil _) (natToChars_all_digit _)]
    rw [stripZeros_natToChars]
  · rw [if_neg hd, if_neg hd]
    rw [normalize_int_frac (natToChars_ne_nil _) (natToChars_all_digit _)
      (padStart_all_digit (natToChars_all_digit _))]
    rw [stripZeros_natToChars]

/-- C2: encoding a non-negative amount with `fromMinor` and decoding with
`toMinor` (at the codec's default `Round` mode) recovers the amount exactly,
for every number of decimals. -/
theorem C2_roundtrip (m : Int) (hm : 0 ≤ m) (d : Nat) :
    toMinor (fromMinor m d) d Rounding.round = some m := by
  by_cases hd : d = 0
  · subst hd
    have hnorm : normalizeAmountInput (fromMinor m 0) =
        some (1, natToChars (m.natAbs / 10 ^ 0), []) := by
      rw [normalize_fromMinor m hm 0, if_pos rfl]
    simp only [toMinor, hnorm]
    have hpad : (([] : List Char) ++ List.replicate (0 + 1) '0').take (0 + 1) = ['0'] := rfl
    rw [hpad]
    rw [show (['0'] : List Char).getD 0 '0' = '0' from rfl]
    rw [show digitVal '0' = 0 from by decide]
    rw [if_neg (by omega), if_neg (by omega)]
    rw [List.take_zero, parseDigits_nil, parseDigits_natToChars]
    rw [Nat.pow_zero, Nat.div_one]
    rw [Int.natAbs_of_nonneg hm]
    simp
  · have hnorm : normalizeAmountInput (fromMinor m d) =
        some (1, natToChars (m.natAbs / 10 ^ d),
          padStart d (natToChars (m.natAbs % 10 ^ d))) := by
      rw [normalize_fromMinor m hm d, if_neg hd]
    simp only [toMinor, hnorm]
    set F := padStart d (natToChars (m.natAbs % 10 ^ d)) with hF
    have hlenF : F.length = d := by
      rw [hF, padStart_length]
      have hmod : m.natAbs % 10 ^ d < 10 ^ d :=
        Nat.mod_lt _ (Nat.pos_pow_of_pos d (by norm_num))
      have := natToChars_length_le hmod (by omega)
      omega
    have hone : d + 1 - d = 1 := by omega
    have hpad : (F ++ List.replicate (d + 1) '0').take (d + 1) = F ++ ['0'] := by
      rw [take_append_replicate F (d + 1) (d + 1) le_rfl]
      rw [List.take_of_length_le (by omega), hlenF, hone]
      rfl
    have hcore : (F ++ ['0']).take d = F := by
      rw [List.take_append_eq_append_take]
      rw [List.take_of_length_le (by omega), hlenF]
      simp
    have hget : (F ++ ['0']).getD d '0' = '0' := by
      rw [getD_append_right (by omega)]
      rw [hlenF]
      simp
    rw [hpad, hcore, hget]
    rw [show digitVal '0' = 0 from by decide]
    rw [if_neg (by omega), if_neg (by omega)]
    rw [hF, parseDigits_padStart, parseDigits_natToChars, parseDigits_natToChars]
    have hsplit : m.natAbs / 10 ^ d * 10 ^ d + m.natAbs % 10 ^ d = m.natAbs :=
      Nat.div_add_mod' m.natAbs (10 ^ d)
    have hcast : ((m.natAbs / 10 ^ d : Nat) : Int) * (10 : Int) ^ d +
        ((m.natAbs % 10 ^ d : Nat) : Int) = m := by
      calc ((m.natAbs / 10 ^ d : Nat) : Int) * (10 : Int) ^ d +
          ((m.natAbs % 10 ^ d : Nat) : Int)
          = ((m.natAbs / 10 ^ d * 10 ^ d + m.natAbs % 10 ^ d : Nat) : Int) := by
            push_cast
            ring
        _ = (m.natAbs : Int) := by rw [hsplit]
        _ = m := Int.natAbs_of_nonneg hm
    rw [hcast]

/-- C2 witness: the round-trip theorem applied at `m = 5`, `d = 2`. -/
theorem C2_roundtrip_witness :
    (0 : Int) ≤ 5 ∧ toMinor (fromMinor 5 2) 2 Rounding.round = some 5 :=
  ⟨by decide, C2_roundtrip 5 (by decide) 2⟩

lemma char_toNat_inj {c d : Char} (h : c.toNat = d.toNat) : c = d := by
  have h1 := Char.ofNat_toNat c
  have h2 := Char.ofNat_toNat d
  rw [← h1, ← h2, h]

lemma getD_take_lt {l : List Char} {n i : Nat} {c : Char} (h : i < n) :
    (l.take n).getD i c = l.getD i c := by
  induction l generalizing n i with
  | nil => simp
  | cons a t ih =>
    cases n with
    | zero => omega
    | succ n =>
      cases i with
      | zero => rfl
      | succ i =>
        rw [List.take_succ_cons, List.getD_cons_succ, List.getD_cons_succ]
        exact ih (by omega)

lemma getD_mem {l : List Char} {i : Nat} {c : Char} (h : i < l.length) :
    l.getD i c ∈ l := by
  induction l generalizing i with
  | nil => simp at h
  | cons a t ih =>
    cases i with
    | zero => exact List.mem_cons_self a t
    | succ i =>
      rw [List.getD_cons_succ]
      exact List.mem_cons_of_mem a (ih (by simpa using h))

lemma normalize_frac_digits {s : List Char} {sg : Int} {I F : List Char}
    (h : normalizeAmountInput s = some (sg, I, F)) :
    ∀ c ∈ F, isDigitChar c = true := by
  simp only [normalizeAmountInput] at h
  set u := trimChars s with hu
  by_cases h1 : u.isEmpty = true
  · rw [if_pos h1] at h
    simp at h
  · rw [if_neg h1] at h
    set w := (if (u.headD ' ' == '+' || u.headD ' ' == '-') = true
      then u.tail else u).filter keepChar with hw
    by_cases h2 : 0 ≤ lastIdx w '.' ∨ 0 ≤ lastIdx w ','
    · rw [if_pos h2] at h
      set sep := (if lastIdx w ',' < lastIdx w '.' then '.' else ',') with hsep
      set fp := (((w.dropWhile (fun c => !(c == sep))).drop 1).filter
        (fun c => !(c == sep))).filter keepSepChar with hfp
      set ip := (if (w.takeWhile (fun c => !(c == sep))).isEmpty = true
        then ['0'] else w.takeWhile (fun c => !(c == sep))).filter keepSepChar with hip
      by_cases h3 : (isDigitStr ip && (fp.isEmpty || isDigitStr fp)) = true
      · rw [if_pos h3] at h
        rw [Option.some.injEq, Prod.mk.injEq, Prod.mk.injEq] at h
        obtain ⟨-, -, hF⟩ := h
        rw [Bool.and_eq_true] at h3
        have h32 := h3.2
        rw [Bool.or_eq_true] at h32
        rcases h32 with hE | hD
        · intro c hc
          rw [← hF] at hc
          rw [List.isEmpty_iff.mp hE] at hc
          simp at hc
        · unfold isDigitStr at hD
          rw [Bool.and_eq_true, List.all_eq_true] at hD
          intro c hc
          rw [← hF] at hc
          exact hD.2 c hc
      · rw [if_neg h3] at h
        simp at h
    · rw [if_neg h2] at h
      by_cases h4 : isDigitStr (w.filter keepSepChar) = true
      · rw [if_pos h4] at h
        rw [Option.some.injEq, Prod.mk.injEq, Prod.mk.injEq] at h
        obtain ⟨-, -, hF⟩ := h
        intro c hc
        rw [← hF] at hc
        simp at hc
      · rw [if_neg h4] at h
        simp at h

lemma toMinor_eq_of_normalize {s : List Char} {sg : Int} {I F : List Char}
    (h : normalizeAmountInput s = some (sg, I, F)) (d : Nat) (mode : Rounding) :
    toMinor s d mode = some ((if sg < 0 then (-1 : Int) else 1) *
      (if F.getD d '0' = '0' then toMinorBase I F d
       else roundAdjust (toMinorBase I F d) 1 mode)) := by
  have hdigF := normalize_frac_digits h
  simp only [toMinor, h]
  have hcore : ((F ++ List.replicate (d + 1) '0').take (d + 1)).take d
      = (F ++ List.replicate d '0').take d := by
    rw [List.take_take, show min d (d + 1) = d from by omega]
    rw [take_append_replicate F d (d + 1) (by omega),
      take_append_replicate F d d le_rfl]
  have hget : ((F ++ List.replicate (d + 1) '0').take (d + 1)).getD d '0'
      = F.getD d '0' := by
    by_cases hF : d < F.length
    · rw [getD_take_lt (by omega), getD_append_left hF]
    · rw [getD_take_lt (by omega), getD_append_right (by omega), getD_replicate,
        getD_out_of_range (by omega)]
  rw [hget, hcore]
  by_cases hc : F.getD d '0' = '0'
  · rw [if_pos hc, hc]
    rw [show digitVal '0' = 0 from by decide]
    rw [if_neg (show ¬ (0 < 0) from by omega)]
    unfold toMinorBase
    simp only [Option.some.injEq]
    split_ifs <;> ring
  · rw [if_neg hc]
    have hFlen : d < F.length := by
      by_contra hlen
      exact hc (getD_out_of_range (by omega))
    have hdig := hdigF (F.getD d '0') (@getD_mem F d '0' hFlen)
    have hb := toNat_bounds_of_isDigitChar hdig
    have hne48 : (F.getD d '0').toNat ≠ 48 := by
      intro h48
      exact hc (char_toNat_inj (by rw [h48]; decide))
    have hpos : 0 < digitVal (F.getD d '0') := by
      unfold digitVal
      omega
    rw [if_pos hpos]
    unfold toMinorBase
    simp only [Option.some.injEq]
    split_ifs <;> ring

/-- C3: on every parseable input, `toMinor` computes
`sign * adjust(integer * 10^d + retainedFraction)`, where the retained
fraction is the parsed fraction padded/truncated to `d` digits, the
adjustment by `roundAdjust(base, +1, mode)` happens exactly when the
`(d+1)`-th fraction digit (the rounding indicator) is non-zero, and the sign
is applied last; with mode `Floor` the result is always
`sign * truncatedMagnitude`, so on the negative input "-0.5" with 0 decimals
it returns 0 — the negation of the truncated magnitude — and not the
mathematical floor `-1` of `-5/10`. -/
theorem C3_toMinor_structure :
    (∀ (s : List Char) (d : Nat) (mode : Rounding) (sg : Int) (I F : List Char),
      normalizeAmountInput s = some (sg, I, F) →
      toMinor s d mode = some ((if sg < 0 then (-1 : Int) else 1) *
        (if F.getD d '0' = '0' then toMinorBase I F d
         else roundAdjust (toMinorBase I F d) 1 mode))) ∧
    (∀ (s : List Char) (d : Nat) (sg : Int) (I F : List Char),
      normalizeAmountInput s = some (sg, I, F) →
      toMinor s d Rounding.floor =
        some ((if sg < 0 then (-1 : Int) else 1) * toMinorBase I F d)) ∧
    (toMinor ("-0.5".toList) 0 Rounding.floor = some 0 ∧
      Int.fdiv (-5) 10 = -1 ∧ (0 : Int) ≠ -1) := by
  refine ⟨fun s d mode sg I F h => toMinor_eq_of_normalize h d mode, ?_, ?_⟩
  · intro s d sg I F h
    rw [toMinor_eq_of_normalize h d Rounding.floor]
    rw [show roundAdjust (toMinorBase I F d) 1 Rounding.floor
      = toMinorBase I F d from rfl]
    rw [ite_self]
  · refine ⟨by decide, by decide, by decide⟩

/-- C3 witness: the structural description applied at the test input
`"1.2345"` with 3 decimals under `Bankers` (indicator digit 5). -/
theorem C3_toMinor_structure_witness :
    toMinor ("1.2345".toList) 3 Rounding.bankers =
      some ((if (1 : Int) < 0 then (-1 : Int) else 1) *
        (if ("2345".toList).getD 3 '0' = '0'
         then toMinorBase ("1".toList) ("2345".toList) 3
         else roundAdjust (toMinorBase ("1".toList) ("2345".toList) 3) 1
           Rounding.bankers)) :=
  C3_toMinor_structure.1 ("1.2345".toList) 3 Rounding.bankers 1 ("1".toList)
    ("2345".toList) (by decide)

/-- C9: on every parseable price string, `priceRatioDecimals` fails exactly
when the parsed sign is negative; otherwise it returns the numerator
`integer * 10^q` plus the fraction truncated to `q` digits with denominator
`10^q`; the numerator is non-negative, the denominator a positive power of
ten; and `priceRatioDecimals(2, "5.4321")` is `{543, 100}`. -/
theorem C9_priceRatioDecimals :
    (∀ (q : Nat) (s : List Char) (sg : Int) (I F : List Char),
      normalizeAmountInput s = some (sg, I, F) →
      ((priceRatioDecimals q s = none ↔ sg < 0) ∧
       (¬ sg < 0 → priceRatioDecimals q s =
         some ((parseDigits I : Int) * (10 : Int) ^ q +
           (parseDigits ((F ++ List.replicate q '0').take q) : Int),
           (10 : Int) ^ q)) ∧
       (∀ num den : Int, priceRatioDecimals q s = some (num, den) →
         0 ≤ num ∧ 0 < den ∧ den = (10 : Int) ^ q))) ∧
    priceRatioDecimals 2 ("5.4321".toList) = some (543, 100) := by
  constructor
  · intro q s sg I F h
    have htl : ((F ++ List.replicate q '0').take q).length = q := by
      rw [List.length_take, List.length_append, List.length_replicate]
      omega
    have hval : (parseDigits (I ++ (F ++ List.replicate q '0').take q) : Int)
        = (parseDigits I : Int) * (10 : Int) ^ q +
          (parseDigits ((F ++ List.replicate q '0').take q) : Int) := by
      rw [parseDigits_append, htl]
      push_cast
      ring
    simp only [priceRatioDecimals, h]
    by_cases hsg : sg < 0
    · rw [if_pos hsg]
      refine ⟨⟨fun _ => hsg, fun _ => rfl⟩, fun hn => absurd hsg hn, ?_⟩
      intro num den hnd
      exact absurd hnd (by simp)
    · rw [if_neg hsg]
      refine ⟨⟨fun hn => absurd hn (by simp), fun hs => absurd hs hsg⟩, ?_, ?_⟩
      · intro hn
        rw [Option.some.injEq, Prod.mk.injEq]
        exact ⟨hval, rfl⟩
      · intro num den hnd
        rw [Option.some.injEq, Prod.mk.injEq] at hnd
        obtain ⟨hnum, hden⟩ := hnd
        refine ⟨?_, ?_, hden.symm⟩
        · rw [← hnum]
          exact Int.natCast_nonneg _
        · rw [← hden]
          positivity
  · decide

/-- C9 witness: the theorem applied at `quoteDecimals = 2`,
`priceStr = "5.4321"` (parsed as sign `+1`, integer "5", fraction "4321"). -/
theorem C9_priceRatioDecimals_witness :
    priceRatioDecimals 2 ("5.4321".toList) =
      some ((parseDigits ("5".toList) : Int) * (10 : Int) ^ 2 +
        (parseDigits ((("4321".toList) ++ List.replicate 2 '0').take 2) : Int),
        (10 : Int) ^ 2) :=
  ((C9_priceRatioDecimals.1 2 ("5.4321".toList) 1 ("5".toList) ("4321".toList)
    (by decide)).2.1 (by norm_num))

lemma padStart_natToChars_no_minus (k i : Nat) :
    ('-' : Char) ∉ padStart k (natToChars i) :=
  not_mem_of_digits (padStart_all_digit (natToChars_all_digit i)) (by decide)

/-- C10: `divToDecimalString` prefixes `-` exactly when the operands' signs
differ — even when the rendered magnitude is zero: for every negative
denominator and positive scale, `divToDecimalString 0 den sc` renders
`-0.00...0` — whereas `fromMinor` never emits `-` for a zero amount. -/
theorem C10_divToDecimalString_negZero :
    (∀ (n den : Int) (sc : Nat) (r : List Char),
      divToDecimalString n den sc = some r →
      ('-' ∈ r ↔ ¬((n < 0) ↔ (den < 0)))) ∧
    (∀ den : Int, den < 0 → ∀ sc : Nat, 0 < sc →
      divToDecimalString 0 den sc =
        some ('-' :: '0' :: '.' :: List.replicate sc '0')) ∧
    (∀ d : Nat, ('-' : Char) ∉ fromMinor 0 d) := by
  refine ⟨?_, ?_, ?_⟩
  · intro n den sc r h
    simp only [divToDecimalString] at h
    by_cases hd : den = 0
    · rw [if_pos hd] at h
      exact absurd h (by simp)
    · rw [if_neg hd] at h
      rw [Option.some.injEq] at h
      set sfull := padStart (sc + 1) (natToChars (n.natAbs * 10 ^ sc / den.natAbs))
        with hsfull
      have hsdig : ∀ c ∈ sfull, isDigitChar c = true :=
        padStart_all_digit (natToChars_all_digit _)
      have hnm : ('-' : Char) ∉ sfull := not_mem_of_digits hsdig (by decide)
      have hhead : ('-' : Char) ∉
          (if (if sc = 0 then ([] : List Char)
               else sfull.take (sfull.length - sc)).isEmpty = true
           then ['0']
           else (if sc = 0 then ([] : List Char)
                 else sfull.take (sfull.length - sc))) := by
        intro hmem
        split_ifs at hmem with h1 h2 h2
        · simp at hmem
        · simp at hmem
        · simp at hmem
        · exact hnm (List.take_subset _ _ hmem)
      have htail : ('-' : Char) ∉
          (if 0 < sc then '.' :: (if sc = 0 then sfull
            else sfull.drop (sfull.length - sc)) else []) := by
        intro hmem
        split_ifs at hmem with h1 h2
        · rcases List.mem_cons.mp hmem with h3 | h3
          · exact absurd h3 (by decide)
          · omega
        · rcases List.mem_cons.mp hmem with h3 | h3
          · exact absurd h3 (by decide)
          · exact hnm (List.drop_subset _ _ h3)
        · simp at hmem
      rw [← h]
      constructor
      · intro hmem
        rcases List.mem_append.mp hmem with h1 | h1
        · rcases List.mem_append.mp h1 with h2 | h2
          · by_contra hiff
            have : (decide (n < 0) != decide (den < 0)) = false := by
              rw [bne_eq_false_iff_eq, decide_eq_decide]
              exact not_not.mp (fun hc => hc (not_not.mp (fun hcc => hcc hiff)))
            rw [this] at h2
            simp at h2
          · exact absurd h2 hhead
        · exact absurd h1 htail
      · intro hiff
        have : (decide (n < 0) != decide (den < 0)) = true := by
          rw [bne_iff_ne]
          intro heq
          exact hiff (decide_eq_decide.mp heq)
        rw [this]
        exact List.mem_append.mpr (Or.inl (List.mem_append.mpr (Or.inl
          (List.mem_singleton.mpr rfl))))
  · intro den hden sc hsc
    obtain ⟨k, rfl⟩ := Nat.exists_eq_succ_of_ne_zero (by omega : sc ≠ 0)
    simp only [divToDecimalString]
    rw [if_neg (by omega)]
    have hneg : (decide ((0 : Int) < 0) != decide (den < 0)) = true := by
      rw [bne_iff_ne]
      simp [hden]
    have ha : (0 : Int).natAbs * 10 ^ (k + 1) / den.natAbs = 0 := by
      simp
    rw [ha]
    have hnat0 : natToChars 0 = ['0'] := rfl
    rw [hnat0]
    have hpad : padStart (k + 1 + 1) ['0'] = List.replicate (k + 1) '0' ++ ['0'] := by
      unfold padStart
      simp
    rw [hpad]
    have hlen : (List.replicate (k + 1) '0' ++ ['0']).length = k + 2 := by
      simp
    rw [hlen]
    have hsub : k + 2 - (k + 1) = 1 := by omega
    rw [hsub]
    have htake1 : (List.replicate (k + 1) '0' ++ ['0']).take 1 = ['0'] := by
      rw [List.replicate_succ, List.cons_append, List.take_succ_cons, List.take_zero]
    have hdrop1 : (List.replicate (k + 1) '0' ++ ['0']).drop 1
        = List.replicate (k + 1) '0' := by
      have hsplit : List.replicate (k + 1) '0' ++ ['0']
          = '0' :: (List.replicate k '0' ++ ['0']) := by
        rw [List.replicate_succ, List.cons_append]
      rw [hsplit, List.drop_succ_cons, List.drop_zero, ← List.replicate_succ']
    rw [hneg, htake1, hdrop1]
    rw [if_pos rfl]
    rw [if_neg (Nat.succ_ne_zero k)]
    rw [ite_self]
    rw [if_neg (Nat.succ_ne_zero k)]
    rw [if_pos (Nat.succ_pos k)]
    rfl
  · intro d
    intro hmem
    simp only [fromMinor] at hmem
    rw [if_neg (by omega : ¬ (0 : Int) < 0), List.nil_append] at hmem
    split_ifs at hmem with h1
    · exact not_mem_of_digits (natToChars_all_digit _) (by decide) hmem
    · rcases List.mem_append.mp hmem with h2 | h2
      · exact not_mem_of_digits (natToChars_all_digit _) (by decide) h2
      · rcases List.mem_cons.mp h2 with h3 | h3
        · exact absurd h3 (by decide)
        · exact padStart_natToChars_no_minus _ _ h3

/-- C10 witness: the negative-zero rendering applied at `den = -2`,
`scale = 2`. -/
theorem C10_divToDecimalString_negZero_witness :
    divToDecimalString 0 (-2) 2 =
      some ('-' :: '0' :: '.' :: List.replicate 2 '0') :=
  C10_divToDecimalString_negZero.2.1 (-2) (by decide) 2 (by decide)

end PreciseMoney
